import Mathlib

/-!
Shallow embedding of the retrieval pipeline of `app.py` (Cozza–Arasu RAG
assistant): the chunker `chunk_text`, the selector `select_top_chunks`, and
the context-assembly expression, together with proofs of the specification
claims about them.

Strings are modelled as `List Char`; Python `len`, slicing, `str.strip`,
`str.replace` and `"sep".join` are modelled by the corresponding list
operations.  The similarity scores produced by the external TF-IDF library
(`TfidfVectorizer` + `cosine_similarity`) are abstracted as an input list of
rationals, one score per chunk; everything downstream of the scores is
embedded faithfully.
-/

namespace RagApp

/-- Python whitespace characters relevant to `str.strip` (ASCII subset:
space, tab, newline, carriage return, vertical tab, form feed). -/
def pyIsSpace (c : Char) : Bool :=
  c == ' ' || c == '\t' || c == '\n' || c == '\r' || c == '\x0b' || c == '\x0c'

/-- Python `text.replace` of the two-character sequence CR LF by LF:
leftmost, non-overlapping occurrences. Models line 50 of `app.py`. -/
def replaceCRLF : List Char → List Char
  | [] => []
  | [c] => [c]
  | c1 :: c2 :: rest =>
    if c1 = '\r' ∧ c2 = '\n' then '\n' :: replaceCRLF rest
    else c1 :: replaceCRLF (c2 :: rest)

/-- Python `c.strip()`: drop whitespace from both ends. -/
def pyStrip (s : List Char) : List Char :=
  ((s.dropWhile pyIsSpace).reverse.dropWhile pyIsSpace).reverse

/-- Python slice `t[s:e]` for `0 ≤ s ≤ e` (the only way `chunk_text` uses it). -/
def pySlice (t : List Char) (s e : Nat) : List Char :=
  (t.drop s).take (e - s)

/-- The start of the next window in `chunk_text` (lines 54–57 of `app.py`):
`end = min(start + size, N)`, `next_start = end - overlap`, and
`start = next_start if next_start > start else end`. -/
def nextStart (N size overlap start : Nat) : Nat :=
  let e := min (start + size) N
  if e - overlap > start then e - overlap else e

/-- The `while start < N` loop of `chunk_text`, recorded as the list of
half-open windows `(start, end)` it visits.  The loop variable is `start`;
`fuel` is a structural bound on the iteration count.  `windows` below calls
it with fuel `N + 1`, which is enough because `start` strictly increases on
every iteration as long as `size > 0` (theorem `nextStart_lt`); for
`size = 0` the Python loop does not terminate and the model returns the
windows of the first `N + 1` iterations. -/
def windowsGo (N size overlap : Nat) : Nat → Nat → List (Nat × Nat)
  | 0, _ => []
  | fuel + 1, start =>
    if start < N then
      (start, min (start + size) N) ::
        windowsGo N size overlap fuel (nextStart N size overlap start)
    else []

/-- All windows visited by the chunking loop on a text of length `N`. -/
def windows (N size overlap : Nat) : List (Nat × Nat) :=
  windowsGo N size overlap (N + 1) 0

/-- `chunk_text(text, size, overlap)` (lines 48–58 of `app.py`): normalize
CR LF to LF, slice the text at the loop's windows, then
`[c.strip() for c in chunks if c.strip()]` — strip each chunk and drop the
ones that are empty after stripping. -/
def chunk_text (text : List Char) (size overlap : Nat) : List (List Char) :=
  let t := replaceCRLF text
  let raw := (windows t.length size overlap).map fun w => pySlice t w.1 w.2
  (raw.map pyStrip).filter fun c => !c.isEmpty

/-! Basic lemmas about the chunker's building blocks. -/

lemma replaceCRLF_of_no_cr {l : List Char} (h : '\r' ∉ l) : replaceCRLF l = l := by
  induction l using replaceCRLF.induct with
  | case1 => rfl
  | case2 c => rfl
  | case3 c1 c2 rest hcr ih =>
    exact absurd (hcr.1 ▸ List.mem_cons_self c1 _) h
  | case4 c1 c2 rest hcr ih =>
    rw [replaceCRLF, if_neg hcr,
      ih fun hm => h (List.mem_cons_of_mem _ hm)]

lemma pyStrip_replicate_A (n : Nat) :
    pyStrip (List.replicate n 'A') = List.replicate n 'A' := by
  have hdrop : ∀ m : Nat, List.dropWhile pyIsSpace (List.replicate m 'A')
      = List.replicate m 'A' := by
    intro m
    cases m with
    | zero => rfl
    | succ k => simp [List.replicate_succ, List.dropWhile_cons, pyIsSpace]
  simp [pyStrip, hdrop, List.reverse_replicate]

lemma isEmpty_replicate_pos {α : Type} (n : Nat) (h : 0 < n) (a : α) :
    (List.replicate n a).isEmpty = false := by
  cases n with
  | zero => omega
  | succ k => rfl

lemma windows_2000_900_150 :
    windows 2000 900 150 = [(0, 900), (750, 1650), (1500, 2000), (1850, 2000)] := by
  decide

lemma chunk_text_A2000 :
    chunk_text (List.replicate 2000 'A') 900 150 =
      [List.replicate 900 'A', List.replicate 900 'A',
       List.replicate 500 'A', List.replicate 150 'A'] := by
  have hcr : replaceCRLF (List.replicate 2000 'A') = List.replicate 2000 'A' :=
    replaceCRLF_of_no_cr fun hm => absurd (List.eq_of_mem_replicate hm) (by decide)
  unfold chunk_text
  rw [hcr]
  simp only [List.length_replicate, windows_2000_900_150]
  norm_num [pySlice, List.drop_replicate, List.take_replicate, pyStrip_replicate_A,
    isEmpty_replicate_pos]

lemma lt_nextStart {N size overlap start : Nat} (hs : 0 < size) (hlt : start < N) :
    start < nextStart N size overlap start := by
  dsimp only [nextStart]
  split
  · omega
  · exact lt_min (by omega) hlt

lemma nextStart_of_overlap_ge {N size overlap start : Nat} (hov : size ≤ overlap)
    (_hlt : start < N) : nextStart N size overlap start = min (start + size) N := by
  have h1 : min (start + size) N ≤ start + size := min_le_left _ _
  dsimp only [nextStart]
  rw [if_neg (by omega)]

lemma nextStart_zero {N size start : Nat} (hs : 0 < size) (hlt : start < N) :
    nextStart N size 0 start = min (start + size) N := by
  have h1 : start < min (start + size) N := lt_min (by omega) hlt
  dsimp only [nextStart]
  rw [if_pos (by omega)]
  omega

lemma windowsGo_overlap_ge (N size overlap : Nat) (hov : size ≤ overlap) (hs : 0 < size) :
    ∀ fuel start, windowsGo N size overlap fuel start = windowsGo N size 0 fuel start := by
  intro fuel
  induction fuel with
  | zero => intro start; rfl
  | succ f ih =>
    intro start
    by_cases h : start < N
    · simp only [windowsGo, if_pos h]
      rw [nextStart_of_overlap_ge hov h, nextStart_zero hs h, ih]
    · simp only [windowsGo, if_neg h]

lemma chunk_text_overlap_ge (text : List Char) {size overlap : Nat}
    (hov : size ≤ overlap) (hs : 0 < size) :
    chunk_text text size overlap = chunk_text text size 0 := by
  simp only [chunk_text, windows]
  rw [windowsGo_overlap_ge _ _ _ hov hs]

lemma windowsGo_width_le (N size overlap : Nat) :
    ∀ fuel start, ∀ w ∈ windowsGo N size overlap fuel start, w.2 - w.1 ≤ size := by
  intro fuel
  induction fuel with
  | zero => intro start w hw; cases hw
  | succ f ih =>
    intro start w hw
    by_cases h : start < N
    · simp only [windowsGo, if_pos h] at hw
      cases hw with
      | head =>
        have := min_le_left (start + size) N
        dsimp only
        omega
      | tail _ hw => exact ih _ w hw
    · simp only [windowsGo, if_neg h] at hw
      cases hw

lemma windowsGo_end_le (N size overlap : Nat) :
    ∀ fuel start, ∀ w ∈ windowsGo N size overlap fuel start, w.2 ≤ N := by
  intro fuel
  induction fuel with
  | zero => intro start w hw; cases hw
  | succ f ih =>
    intro start w hw
    by_cases h : start < N
    · simp only [windowsGo, if_pos h] at hw
      cases hw with
      | head => exact min_le_right _ _
      | tail _ hw => exact ih _ w hw
    · simp only [windowsGo, if_neg h] at hw
      cases hw

lemma windowsGo_cover (N size overlap : Nat) (hs : 0 < size) :
    ∀ fuel start pos, N - start < fuel → start ≤ pos → pos < N →
      ∃ w ∈ windowsGo N size overlap fuel start, w.1 ≤ pos ∧ pos < w.2 := by
  intro fuel
  induction fuel with
  | zero => intro start pos h1 h2 h3; omega
  | succ f ih =>
    intro start pos hfuel hsp hpN
    have hsN : start < N := lt_of_le_of_lt hsp hpN
    simp only [windowsGo, if_pos hsN]
    by_cases hpos : pos < min (start + size) N
    · exact ⟨(start, min (start + size) N), List.mem_cons_self _ _, hsp, hpos⟩
    · have hmin : min (start + size) N ≤ pos := le_of_not_lt hpos
      have hnext_le : nextStart N size overlap start ≤ min (start + size) N := by
        dsimp only [nextStart]
        split <;> omega
      have hadv : start < nextStart N size overlap start := lt_nextStart hs hsN
      obtain ⟨w, hw, hcov⟩ := ih (nextStart N size overlap start) pos (by omega)
        (le_trans hnext_le hmin) hpN
      exact ⟨w, List.mem_cons_of_mem _ hw, hcov⟩

lemma length_pySlice_le (t : List Char) (s e : Nat) : (pySlice t s e).length ≤ e - s := by
  simp only [pySlice, List.length_take]
  exact min_le_left _ _

lemma length_pyStrip_le (s : List Char) : (pyStrip s).length ≤ s.length := by
  simp only [pyStrip, List.length_reverse]
  calc ((s.dropWhile pyIsSpace).reverse.dropWhile pyIsSpace).length
      ≤ (s.dropWhile pyIsSpace).reverse.length := (List.dropWhile_sublist _).length_le
    _ = (s.dropWhile pyIsSpace).length := List.length_reverse _
    _ ≤ s.length := (List.dropWhile_sublist _).length_le

lemma chunk_text_mem_length_le (text : List Char) (size overlap : Nat) :
    ∀ c ∈ chunk_text text size overlap, c.length ≤ size := by
  intro c hc
  simp only [chunk_text, List.mem_filter, List.mem_map, List.map_map] at hc
  obtain ⟨⟨w, hw, rfl⟩, -⟩ := hc
  calc (pyStrip (pySlice (replaceCRLF text) w.1 w.2)).length
      ≤ (pySlice (replaceCRLF text) w.1 w.2).length := length_pyStrip_le _
    _ ≤ w.2 - w.1 := length_pySlice_le _ _ _
    _ ≤ size := windowsGo_width_le _ _ _ _ _ w hw

/-! Claim theorems about the chunker. -/

/-- C1: for every text and every `size > 0`, the chunking loop's window
position strictly advances on every iteration — whenever the computed next
start `end - overlap` is not strictly greater than the current start, the
next start is forced to the current window's end (`nextStart` is the exact
advance rule of lines 56–57 of `app.py`), so `chunk_text` terminates even
when `overlap ≥ size`; in particular `chunk_text text 10 10` and
`chunk_text text 10 15` produce the same result as `overlap = 0` would. -/
theorem chunk_text_forced_advance_terminates :
    (∀ N size overlap start : Nat, 0 < size → start < N →
      start < nextStart N size overlap start) ∧
    (∀ text : List Char, chunk_text text 10 10 = chunk_text text 10 0) ∧
    (∀ text : List Char, chunk_text text 10 15 = chunk_text text 10 0) :=
  ⟨fun _N _size _overlap _start hs hlt => lt_nextStart hs hlt,
   fun text => chunk_text_overlap_ge text (by omega) (by omega),
   fun text => chunk_text_overlap_ge text (by omega) (by omega)⟩

/-- Witness for C1 at concrete inputs. -/
theorem chunk_text_forced_advance_terminates_witness :
    0 < nextStart 5 10 10 0 ∧
      chunk_text ('a' :: 'b' :: []) 10 10 = chunk_text ('a' :: 'b' :: []) 10 0 ∧
      chunk_text ('a' :: 'b' :: []) 10 15 = chunk_text ('a' :: 'b' :: []) 10 0 :=
  ⟨chunk_text_forced_advance_terminates.1 5 10 10 0 (by decide) (by decide),
   chunk_text_forced_advance_terminates.2.1 ('a' :: 'b' :: []),
   chunk_text_forced_advance_terminates.2.2 ('a' :: 'b' :: [])⟩

/-- C3 (counterexample): on the text `"A" * 2000` with `size = 900` and
`overlap = 150`, the chunker does not produce chunks of lengths
`[900, 900, 350]` — the advance rule visits starts 0, 750, 1500, 1850. -/
theorem chunk_text_A2000_not_three_chunks :
    (chunk_text (List.replicate 2000 'A') 900 150).map List.length ≠ [900, 900, 350] := by
  rw [chunk_text_A2000]
  simp only [List.map_cons, List.map_nil, List.length_replicate]
  decide

/-- C3 (amended): on the text `"A" * 2000` with `size = 900` and
`overlap = 150`, the chunker yields exactly 4 chunks, of lengths 900, 900,
500 and 150, from the windows `(0, 900)`, `(750, 1650)`, `(1500, 2000)` and
`(1850, 2000)` resolved by the advance rule. -/
theorem chunk_text_A2000_four_chunks :
    (chunk_text (List.replicate 2000 'A') 900 150).map List.length = [900, 900, 500, 150] ∧
      windows 2000 900 150 = [(0, 900), (750, 1650), (1500, 2000), (1850, 2000)] := by
  rw [chunk_text_A2000]
  refine ⟨?_, windows_2000_900_150⟩
  simp only [List.map_cons, List.map_nil, List.length_replicate]

/-- C4: for every text, every `size > 0` and every overlap, every string in
the list returned by `chunk_text` has length at most `size`. -/
theorem chunk_text_length_le_size (text : List Char) (size overlap : Nat)
    (_hs : 0 < size) : ∀ c ∈ chunk_text text size overlap, c.length ≤ size :=
  fun c hc => chunk_text_mem_length_le text size overlap c hc

/-- Witness for C4 at a concrete input. -/
theorem chunk_text_length_le_size_witness :
    ('a' :: []).length ≤ 1 :=
  chunk_text_length_le_size ('a' :: 'b' :: []) 1 0 (by decide) ('a' :: []) (by decide)

/-- C5: for every text and every `0 ≤ overlap < size`, the untrimmed windows
produced by the chunking loop cover exactly the character positions of the
CRLF-normalized input text: a position `pos` is below the normalized length
iff some window `(start, end)` has `start ≤ pos < end`. -/
theorem windows_cover_iff (text : List Char) (size overlap : Nat)
    (hov : overlap < size) :
    ∀ pos : Nat, pos < (replaceCRLF text).length ↔
      ∃ w ∈ windows (replaceCRLF text).length size overlap, w.1 ≤ pos ∧ pos < w.2 := by
  intro pos
  constructor
  · intro hp
    exact windowsGo_cover _ size overlap (by omega) _ 0 pos (by omega) (Nat.zero_le _) hp
  · rintro ⟨w, hw, h1, h2⟩
    exact lt_of_lt_of_le h2 (windowsGo_end_le _ _ _ _ _ w hw)

/-- Witness for C5 at a concrete input. -/
theorem windows_cover_iff_witness :
    1 < (replaceCRLF ('a' :: 'b' :: [])).length ↔
      ∃ w ∈ windows (replaceCRLF ('a' :: 'b' :: [])).length 2 1, w.1 ≤ 1 ∧ 1 < w.2 :=
  windows_cover_iff ('a' :: 'b' :: []) 2 1 (by decide) 1

/-!
The selector.  `select_top_chunks` (lines 85–104 of `app.py`) computes
TF-IDF cosine-similarity scores with an external library and then ranks and
greedily packs the chunks.  The scores are abstracted as an input list
`sims : List ℚ` (one score per chunk, in pool order); the ranking and the
packing loop are embedded faithfully.
-/

/-- The order by which `sorted(zip(sims, range(len(chunks))), reverse=True)`
(line 94 of `app.py`) arranges the score-index pairs: descending
lexicographic comparison, so `pyGe a b` holds when `a` sorts no later than
`b` — either `a` has the larger score, or the scores are equal and `a` has
the larger (or equal) index. -/
def pyGe (a b : ℚ × Nat) : Prop :=
  b.1 < a.1 ∨ (a.1 = b.1 ∧ b.2 ≤ a.2)

instance : DecidableRel pyGe := fun a b =>
  inferInstanceAs (Decidable (b.1 < a.1 ∨ (a.1 = b.1 ∧ b.2 ≤ a.2)))

instance : IsTotal (ℚ × Nat) pyGe where
  total a b := by
    rcases lt_trichotomy a.1 b.1 with h | h | h
    · exact Or.inr (Or.inl h)
    · rcases le_total a.2 b.2 with h2 | h2
      · exact Or.inr (Or.inr ⟨h.symm, h2⟩)
      · exact Or.inl (Or.inr ⟨h, h2⟩)
    · exact Or.inl (Or.inl h)

instance : IsTrans (ℚ × Nat) pyGe where
  trans a b c hab hbc := by
    rcases hab with h1 | ⟨h1, h2⟩ <;> rcases hbc with h3 | ⟨h3, h4⟩
    · exact Or.inl (lt_trans h3 h1)
    · exact Or.inl (h3 ▸ h1)
    · exact Or.inl (h1 ▸ h3)
    · exact Or.inr ⟨h1.trans h3, le_trans h4 h2⟩

/-- Line 94 of `app.py`:
`ranked = sorted(zip(sims, range(len(chunks))), reverse=True)`.
Python's sort is stable, but no two zipped pairs are equal (their indices
differ), so the result is the unique arrangement in strictly descending
tuple order; any correct sort produces it, and we use insertion sort. -/
def ranked (sims : List ℚ) (n : Nat) : List (ℚ × Nat) :=
  List.insertionSort pyGe (sims.zip (List.range n))

/-- The greedy packing loop of `select_top_chunks` (lines 96–104 of
`app.py`).  The candidates are the ranked score-index pairs; `used` is the
character count consumed so far and `count` the number of chunks selected
so far; the returned list is what the loop appends to `selected` from this
state on.  A candidate chunk `c` is accepted when
`used + len(c) <= budget`; after processing each candidate the loop breaks
when `len(selected) >= top_k or used >= budget`. -/
def packGo (chunks : List (List Char)) (top_k budget : Nat) :
    List (ℚ × Nat) → Nat → Nat → List (List Char)
  | [], _, _ => []
  | p :: rest, used, count =>
    let c := chunks.getD p.2 []
    if used + c.length ≤ budget then
      if top_k ≤ count + 1 ∨ budget ≤ used + c.length then [c]
      else c :: packGo chunks top_k budget rest (used + c.length) (count + 1)
    else
      if top_k ≤ count ∨ budget ≤ used then []
      else packGo chunks top_k budget rest used count

/-- `select_top_chunks(question, chunks, top_k, budget)` (lines 85–104 of
`app.py`) with the similarity scores `sims` of the question against each
chunk abstracted as an input: an empty pool returns `[]` at once; otherwise
the score-index pairs are ranked in descending tuple order and the first
`top_k * 3` of them are greedily packed under the budget. -/
def select_top_chunks (sims : List ℚ) (chunks : List (List Char))
    (top_k budget : Nat) : List (List Char) :=
  if chunks.isEmpty then []
  else packGo chunks top_k budget ((ranked sims chunks.length).take (top_k * 3)) 0 0

lemma packGo_length_le (chunks : List (List Char)) (top_k budget : Nat) :
    ∀ cands used count, count < top_k →
      (packGo chunks top_k budget cands used count).length ≤ top_k - count := by
  intro cands
  induction cands with
  | nil => intro used count h; simp [packGo]
  | cons p rest ih =>
    intro used count h
    dsimp only [packGo]
    split
    · split
      · simp only [List.length_cons, List.length_nil]
        omega
      · rename_i hgo
        have h2 : count + 1 < top_k := by omega
        have := ih (used + (chunks.getD p.2 []).length) (count + 1) h2
        simp only [List.length_cons]
        omega
    · split
      · simp
      · rename_i hgo
        have := ih used count h
        omega

lemma packGo_sum_le (chunks : List (List Char)) (top_k budget : Nat) :
    ∀ cands used count, used ≤ budget →
      used + ((packGo chunks top_k budget cands used count).map List.length).sum
        ≤ budget := by
  intro cands
  induction cands with
  | nil => intro used count h; simpa [packGo]
  | cons p rest ih =>
    intro used count h
    dsimp only [packGo]
    split
    · rename_i hacc
      split
      · simp only [List.map_cons, List.map_nil, List.sum_cons, List.sum_nil]
        omega
      · have := ih (used + (chunks.getD p.2 []).length) (count + 1) hacc
        simp only [List.map_cons, List.sum_cons]
        omega
    · split
      · simpa
      · exact ih used count h

/-! Claim theorems about the selector. -/

/-- C2: for every score assignment, chunk pool, `top_k` and budget, the
list returned by `select_top_chunks` uses at most `budget` characters in
total and contains at most `top_k` chunks. -/
theorem select_top_chunks_budget_invariant (sims : List ℚ)
    (chunks : List (List Char)) (top_k budget : Nat) :
    ((select_top_chunks sims chunks top_k budget).map List.length).sum ≤ budget ∧
      (select_top_chunks sims chunks top_k budget).length ≤ top_k := by
  unfold select_top_chunks
  split
  · simp
  · constructor
    · simpa using packGo_sum_le chunks top_k budget _ 0 0 (Nat.zero_le _)
    · rcases Nat.eq_zero_or_pos top_k with h0 | hpos
      · subst h0
        simp [packGo]
      · simpa using packGo_length_le chunks top_k budget _ 0 0 hpos

/-- C8: the selector returns the empty list immediately on an empty chunk
pool, for every score assignment, `top_k` and budget. -/
theorem select_top_chunks_nil (sims : List ℚ) (top_k budget : Nat) :
    select_top_chunks sims [] top_k budget = [] := rfl

lemma zip_map_snd_sublist {α β : Type} :
    ∀ (l1 : List α) (l2 : List β), ((l1.zip l2).map Prod.snd).Sublist l2 := by
  intro l1
  induction l1 with
  | nil => intro l2; simp
  | cons a l1 ih =>
    intro l2
    cases l2 with
    | nil => simp
    | cons b l2 =>
      simpa [List.zip_cons_cons] using List.Sublist.cons₂ b (ih l2)

lemma ranked_map_snd_nodup (sims : List ℚ) (n : Nat) :
    ((ranked sims n).map Prod.snd).Nodup := by
  have hperm : ((ranked sims n).map Prod.snd).Perm ((sims.zip (List.range n)).map Prod.snd) :=
    (List.perm_insertionSort pyGe _).map Prod.snd
  exact hperm.nodup_iff.mpr ((zip_map_snd_sublist _ _).nodup (List.nodup_range n))

/-- C6: the ranking on line 94 of `app.py` arranges the score-index pairs
in strictly descending tuple order — in particular, two chunks with exactly
equal scores are ordered with the higher original pool index first — and it
is a permutation of the zipped score-index pairs. -/
theorem ranked_tie_break (sims : List ℚ) (n : Nat) :
    (ranked sims n).Pairwise (fun a b => b.1 < a.1 ∨ (a.1 = b.1 ∧ b.2 < a.2)) ∧
      (ranked sims n).Perm (sims.zip (List.range n)) := by
  have hperm : (ranked sims n).Perm (sims.zip (List.range n)) := List.perm_insertionSort _ _
  have hsorted : (ranked sims n).Pairwise pyGe := List.sorted_insertionSort pyGe _
  have hne : (ranked sims n).Pairwise fun a b => a.2 ≠ b.2 := by
    have hnd := ranked_map_snd_nodup sims n
    rw [List.Nodup, List.pairwise_map] at hnd
    exact hnd
  refine ⟨(hsorted.and hne).imp ?_, hperm⟩
  rintro a b ⟨hge, hneq⟩
  rcases hge with h | ⟨h1, h2⟩
  · exact Or.inl h
  · exact Or.inr ⟨h1, lt_of_le_of_ne h2 (Ne.symm hneq)⟩

lemma packGo_eq_map_sublist (chunks : List (List Char)) (top_k budget : Nat) :
    ∀ cands used count, ∃ sel : List (ℚ × Nat), sel.Sublist cands ∧
      packGo chunks top_k budget cands used count
        = sel.map fun p => chunks.getD p.2 [] := by
  intro cands
  induction cands with
  | nil => intro used count; exact ⟨[], List.nil_sublist _, rfl⟩
  | cons p rest ih =>
    intro used count
    dsimp only [packGo]
    split
    · split
      · exact ⟨[p], List.Sublist.cons₂ p (List.nil_sublist rest), rfl⟩
      · obtain ⟨sel, hs, he⟩ := ih (used + (chunks.getD p.2 []).length) (count + 1)
        exact ⟨p :: sel, List.Sublist.cons₂ p hs, by rw [List.map_cons, he]⟩
    · split
      · exact ⟨[], List.nil_sublist _, rfl⟩
      · obtain ⟨sel, hs, he⟩ := ih used count
        exact ⟨sel, List.Sublist.cons p hs, he⟩

/-- C10: every chunk returned by the selector is an element of the input
pool taken verbatim, and each pool position contributes at most one chunk:
the result is the image of a duplicate-free list of in-range pool indices. -/
theorem select_top_chunks_mem_pool (sims : List ℚ) (chunks : List (List Char))
    (top_k budget : Nat) :
    ∃ idxs : List Nat, idxs.Nodup ∧ (∀ i ∈ idxs, i < chunks.length) ∧
      select_top_chunks sims chunks top_k budget
        = idxs.map (fun i => chunks.getD i []) ∧
      ∀ c ∈ select_top_chunks sims chunks top_k budget, c ∈ chunks := by
  by_cases hemp : chunks.isEmpty
  · exact ⟨[], List.nodup_nil, by simp, by simp [select_top_chunks, hemp], by
      simp [select_top_chunks, hemp]⟩
  · obtain ⟨sel, hs, he⟩ := packGo_eq_map_sublist chunks top_k budget
      ((ranked sims chunks.length).take (top_k * 3)) 0 0
    have hsel : select_top_chunks sims chunks top_k budget
        = sel.map fun p => chunks.getD p.2 [] := by
      simp only [select_top_chunks, if_neg hemp]
      exact he
    have hsub : (sel.map Prod.snd).Sublist ((ranked sims chunks.length).map Prod.snd) :=
      (hs.trans (List.take_sublist _ _)).map Prod.snd
    have hbound : ∀ i ∈ sel.map Prod.snd, i < chunks.length := by
      intro i hi
      have hi2 : i ∈ (ranked sims chunks.length).map Prod.snd := hsub.subset hi
      have hi3 : i ∈ (sims.zip (List.range chunks.length)).map Prod.snd :=
        ((List.perm_insertionSort pyGe _).map Prod.snd).subset hi2
      have hi4 : i ∈ List.range chunks.length := (zip_map_snd_sublist _ _).subset hi3
      exact List.mem_range.mp hi4
    refine ⟨sel.map Prod.snd, (ranked_map_snd_nodup sims chunks.length).sublist hsub,
      hbound, ?_, ?_⟩
    · rw [hsel, List.map_map]
      rfl
    · intro c hc
      rw [hsel] at hc
      obtain ⟨p, hp, rfl⟩ := List.mem_map.mp hc
      have hlt : p.2 < chunks.length := hbound p.2 (List.mem_map_of_mem Prod.snd hp)
      rw [List.getD_eq_getElem _ _ hlt]
      exact List.getElem_mem _

/-- Modelled from the spec: the reference packing procedure of claim C7
(spec §4.2) taken at its word.  Scanning the bounded candidate list in
ranked order, the scan stops as soon as `top_k` chunks have been accepted
or the characters used so far have reached the budget — so the stop
condition is consulted before each candidate is examined; otherwise a
candidate is accepted iff `used + len(c) <= budget`, and a rejected
candidate is skipped without ending the scan. -/
def specPack (chunks : List (List Char)) (top_k budget : Nat) :
    List (ℚ × Nat) → Nat → Nat → List (List Char)
  | [], _, _ => []
  | p :: rest, used, count =>
    if top_k ≤ count ∨ budget ≤ used then []
    else
      let c := chunks.getD p.2 []
      if used + c.length ≤ budget then
        c :: specPack chunks top_k budget rest (used + c.length) (count + 1)
      else specPack chunks top_k budget rest used count

/-- Modelled from the spec: the selector of claim C7 with the reference
packing procedure `specPack` in place of the code's packing loop. -/
def specSelect (sims : List ℚ) (chunks : List (List Char))
    (top_k budget : Nat) : List (List Char) :=
  if chunks.isEmpty then []
  else specPack chunks top_k budget ((ranked sims chunks.length).take (top_k * 3)) 0 0

lemma specPack_stop (chunks : List (List Char)) (top_k budget : Nat)
    (cands : List (ℚ × Nat)) (used count : Nat)
    (h : top_k ≤ count ∨ budget ≤ used) :
    specPack chunks top_k budget cands used count = [] := by
  cases cands with
  | nil => rfl
  | cons p rest =>
    dsimp only [specPack]
    rw [if_pos h]

lemma packGo_eq_specPack (chunks : List (List Char)) (top_k budget : Nat) :
    ∀ cands used count, used < budget → count < top_k →
      packGo chunks top_k budget cands used count
        = specPack chunks top_k budget cands used count := by
  intro cands
  induction cands with
  | nil => intro used count hu hc; rfl
  | cons p rest ih =>
    intro used count hu hc
    dsimp only [packGo, specPack]
    have hguard : ¬(top_k ≤ count ∨ budget ≤ used) := by omega
    rw [if_neg hguard, if_neg hguard]
    by_cases hacc : used + (chunks.getD p.2 []).length ≤ budget
    · rw [if_pos hacc, if_pos hacc]
      by_cases hstop : top_k ≤ count + 1 ∨ budget ≤ used + (chunks.getD p.2 []).length
      · rw [if_pos hstop, specPack_stop chunks top_k budget rest _ _ hstop]
      · rw [if_neg hstop, ih _ _ (by omega) (by omega)]
    · rw [if_neg hacc, if_neg hacc]
      exact ih _ _ hu hc

/-- C7 (counterexample): the packing loop does not equal the claim's
reference procedure as stated.  With `budget = 0`, `top_k = 1` and the pool
consisting of one empty-string chunk, the characters used so far (0) have
already reached the budget, so the reference scan stops before examining
any candidate and returns no chunks — but the code's loop checks the stop
condition only after processing a candidate, so it still accepts the empty
chunk. -/
theorem select_top_chunks_budget_zero_ne_spec :
    select_top_chunks [(0 : ℚ)] [([] : List Char)] 1 0
      ≠ specSelect [(0 : ℚ)] [([] : List Char)] 1 0 := by
  decide

/-- C7 (amended): whenever `budget ≥ 1`, the packing loop equals the
reference procedure — only the first `3 * top_k` ranked candidates are
considered; a candidate is accepted iff `used + len(c) <= budget`, a
rejected candidate is skipped without ending the scan, and the scan stops
as soon as `top_k` chunks have been accepted or `used >= budget` or the
candidate list is exhausted.  (For `budget = 0` the code still processes
the first candidate, accepting it when it is an empty string, before the
`used >= budget` stop applies.) -/
theorem select_top_chunks_eq_specSelect (sims : List ℚ)
    (chunks : List (List Char)) (top_k : Nat) {budget : Nat} (hb : 0 < budget) :
    select_top_chunks sims chunks top_k budget
      = specSelect sims chunks top_k budget := by
  unfold select_top_chunks specSelect
  split
  · rfl
  · rcases Nat.eq_zero_or_pos top_k with h0 | hpos
    · subst h0
      rfl
    · exact packGo_eq_specPack chunks top_k budget _ 0 0 hb hpos

/-- Witness for the amended C7 at a concrete input. -/
theorem select_top_chunks_eq_specSelect_witness :
    select_top_chunks [(1 : ℚ)] [('x' :: [])] 1 5
      = specSelect [(1 : ℚ)] [('x' :: [])] 1 5 :=
  select_top_chunks_eq_specSelect [(1 : ℚ)] [('x' :: [])] 1 (by decide)

/-!
Context assembly (line 172 of `app.py`): the selected chunks are wrapped
and joined into the context string passed to the model.
-/

/-- The literal header placed before each chunk: the characters of
`"[CHUNK]"` followed by a newline. -/
def chunkHeader : List Char :=
  '[' :: 'C' :: 'H' :: 'U' :: 'N' :: 'K' :: ']' :: '\n' :: []

/-- Line 172 of `app.py`: each selected chunk is prefixed with
`chunkHeader` and the results are joined with the two-character separator
LF LF — Python's `"sep".join` is `List.intercalate`. -/
def context (support : List (List Char)) : List Char :=
  List.intercalate ('\n' :: '\n' :: []) (support.map fun c => chunkHeader ++ c)

/-- Modelled from the spec: the context format of claim C9 written as a
recurrence — each chunk is wrapped as the literal header followed by the
chunk text, and exactly one blank line (two newline characters) stands
between consecutive wrapped chunks. -/
def specContext : List (List Char) → List Char
  | [] => []
  | c :: [] => chunkHeader ++ c
  | c :: rest => chunkHeader ++ c ++ '\n' :: '\n' :: specContext rest

lemma intercalate_cons_cons {α : Type} (sep x y : List α) (l : List (List α)) :
    List.intercalate sep (x :: y :: l)
      = x ++ sep ++ List.intercalate sep (y :: l) := by
  simp [List.intercalate, List.intersperse, List.append_assoc]

/-- C9: for every list of selected chunks, the context string built on line
172 of `app.py` wraps each chunk as the literal `[CHUNK]` header plus a
newline plus the chunk text, with exactly one blank line (two newline
characters) between consecutive chunks. -/
theorem context_eq_specContext : ∀ support, context support = specContext support := by
  intro support
  induction support with
  | nil => rfl
  | cons c rest ih =>
    cases rest with
    | nil => simp [context, specContext, List.intercalate, List.intersperse]
    | cons d rest2 =>
      simp only [context, List.map_cons] at ih ⊢
      rw [intercalate_cons_cons, ih]
      simp only [specContext, List.append_assoc, List.cons_append, List.nil_append]

end RagApp
